import Mathlib

/-!
Verification of the CFP_NER entity-extraction pipeline (src/CFP_NER.py).

The development shallowly embeds:
  * the IOB entity-merging loop of stanford_ner (lines 90-103),
  * the spec-described IOB chunking rule produced by the regexp grammar
    'Tag: {<ORGANIZATION|PERSON.*>+}' together with tree2conlltags,
  * the category filter of spacy_ner (lines 59-63),
  * the partition / sort output step (lines 148-156),
  * the URL-validity check and error-exit control flow (lines 31-42, 129-134).
-/

namespace CFPNER

/-- Python str.strip with no argument, modelled on the character list:
remove leading and trailing whitespace. -/
def pyStrip (s : String) : String :=
  ⟨((s.data.dropWhile Char.isWhitespace).reverse.dropWhile Char.isWhitespace).reverse⟩

/-- One element of the conll triple list produced by tree2conlltags:
token text, raw category label, and IOB marker. -/
structure Conll where
  token : String
  cat : String
  iob : String
deriving DecidableEq, Repr

/-- The inner lookahead loop of stanford_ner (lines 95-99): starting from the
accumulated entity text, append the trimmed text of each following triple,
space-separated, as long as its marker is I-Tag; stop at the first
non-I-Tag triple. -/
def mergeITags : List Conll → String → String
  | [], ent => ent
  | c :: rest, ent =>
    if c.iob == "I-Tag" then mergeITags rest (ent ++ " " ++ pyStrip c.token)
    else ent

/-- The outer scan of stanford_ner (lines 91-102): on each B-Tag triple,
build an entity from its trimmed token text plus the merged following
I-Tag tokens, normalize the category ORGANIZATION to ORG, and emit; the
scan then resumes from the next position. -/
def stanford_ner : List Conll → List (String × String)
  | [] => []
  | c :: rest =>
    if c.iob == "B-Tag" then
      (mergeITags rest (pyStrip c.token),
        if c.cat == "ORGANIZATION" then "ORG" else c.cat) :: stanford_ner rest
    else stanford_ner rest

/-- Whether a raw tag is grouped by the regexp grammar
'Tag: {<ORGANIZATION|PERSON.*>+}' (line 88): the tag is ORGANIZATION or
begins with PERSON. -/
def isEntTag (c : String) : Bool :=
  c == "ORGANIZATION" || "PERSON".data.isPrefixOf c.data

/-- Modelled from the spec: the IOB labels produced by the nltk
RegexpParser with the grammar of line 88 followed by tree2conlltags
(line 89), missing from src/ as library code. Per the spec, the chunking
rule groups any maximal run of person- or organization-tagged tokens into
one chunk; the first token of a chunk gets marker B-Tag, the following
tokens of the chunk I-Tag, and every token outside a chunk gets O. The
boolean argument records whether the previous token was inside a chunk. -/
def toIOB : List (String × String) → Bool → List Conll
  | [], _ => []
  | (t, c) :: rest, inChunk =>
    if isEntTag c then
      ⟨t, c, if inChunk then "I-Tag" else "B-Tag"⟩ :: toIOB rest true
    else
      ⟨t, c, "O"⟩ :: toIOB rest false

/-- The whole Stanford path on tagged tokens: chunk the raw
(token, category) pairs into IOB triples, then merge with stanford_ner. -/
def stanfordPath (tagged : List (String × String)) : List (String × String) :=
  stanford_ner (toIOB tagged false)

/-- The filtering loop of spacy_ner (lines 59-63) on the chunks returned
by the external model: keep exactly the chunks labeled ORG or PERSON,
trimming the chunk text. -/
def spacy_ner : List (String × String) → List (String × String)
  | [] => []
  | c :: rest =>
    if c.2 == "ORG" || c.2 == "PERSON" then (pyStrip c.1, c.2) :: spacy_ner rest
    else spacy_ner rest

/-- The accumulation loop of the output step (lines 150-154), PERSON
branch: names are appended in input order. -/
def collectNames : List (String × String) → List String
  | [] => []
  | e :: rest =>
    if e.2 == "PERSON" then e.1 :: collectNames rest else collectNames rest

/-- The accumulation loop of the output step (lines 150-154), ORG branch:
affiliations are appended in input order. -/
def collectAffiliations : List (String × String) → List String
  | [] => []
  | e :: rest =>
    if e.2 == "ORG" then e.1 :: collectAffiliations rest else collectAffiliations rest

/-- Python string comparison, as used by list.sort on strings:
lexicographic on the code-point sequence. -/
def strLe (a b : String) : Bool :=
  !decide (b.data < a.data)

/-- The output step (lines 148-156): partition the entity list into names
(category PERSON) and affiliations (category ORG), dropping every other
category, then sort each list ascending (a stable comparison sort, as
Python list.sort is). -/
def outputStep (result : List (String × String)) : List String × List String :=
  ((collectNames result).insertionSort (fun a b => strLe a b = true),
   (collectAffiliations result).insertionSort (fun a b => strLe a b = true))

/-- The six components of a Python urlparse result, in tuple order. -/
structure ParseResult where
  scheme : String
  netloc : String
  path : String
  params : String
  query : String
  fragment : String
deriving DecidableEq, Repr

/-- The components of a ParseResult as iterated by Python tuple
membership. -/
def ParseResult.components (u : ParseResult) : List String :=
  [u.scheme, u.netloc, u.path, u.params, u.query, u.fragment]

/-- The URL validity check of line 130: Python evaluates
'wikicfp.com' in url by comparing the string against each component of
the parsed tuple. -/
def urlIsValid (u : ParseResult) : Bool :=
  u.components.contains "wikicfp.com"

/-- Outcome of an early exit: the printed message and the process exit
status. -/
structure ExitResult where
  message : String
  code : Nat
deriving DecidableEq, Repr

/-- get_cfp (lines 31-42) with the external scraper abstracted: the
argument is some preprocessed cfp text when the page has the expected
cfp section, and none when the scrape raises AttributeError (invalid
URL or missing cfp div). On none the function prints
'Please enter a valid URL' and exits with status 0. -/
def get_cfp (page : Option String) : Except ExitResult String :=
  match page with
  | some cfp => .ok cfp
  | none => .error ⟨"Please enter a valid URL", 0⟩

/-- The main control flow (lines 129-156) after argument parsing: check
URL validity (exiting with the message and status 0 on failure), scrape
via get_cfp (same exit on failure), run the selected NER model, and
partition/sort the result. The NER model is abstracted as a function
from the cfp text to an entity list. -/
def mainFlow (u : ParseResult) (page : Option String)
    (ner : String → List (String × String)) :
    Except ExitResult (List String × List String) :=
  if urlIsValid u then
    match get_cfp page with
    | .error e => .error e
    | .ok cfp => .ok (outputStep (ner cfp))
  else
    .error ⟨"Please enter a valid URL", 0⟩

/-! ### Helper lemmas -/

/-- The accumulator loop of String.intercalate is a left fold. -/
theorem intercalate_go_eq_foldl (l : List String) (s acc : String) :
    String.intercalate.go acc s l = l.foldl (fun r t => r ++ s ++ t) acc := by
  induction l generalizing acc with
  | nil => rfl
  | cons a as ih => simp only [String.intercalate.go, List.foldl_cons, ih]

/-- String.intercalate on a nonempty list as a left fold over the tail. -/
theorem intercalate_cons (s a : String) (as : List String) :
    String.intercalate s (a :: as) = as.foldl (fun r t => r ++ s ++ t) a := by
  simp only [String.intercalate, intercalate_go_eq_foldl]

/-- The lookahead loop consumes exactly the leading I-Tag run and joins
the stripped token texts with single spaces onto the accumulator. -/
theorem mergeITags_eq_intercalate (l : List Conll) (ent : String) :
    mergeITags l ent =
      String.intercalate " "
        (ent :: (l.takeWhile fun c => c.iob == "I-Tag").map fun c => pyStrip c.token) := by
  rw [intercalate_cons]
  induction l generalizing ent with
  | nil => rfl
  | cons c rest ih =>
    cases h : c.iob == "I-Tag" with
    | false => simp [mergeITags, List.takeWhile_cons, h]
    | true => simp [mergeITags, List.takeWhile_cons, h, ih]

/-- Unfolding stanford_ner at a B-Tag head. -/
theorem stanford_ner_cons_begin (c : Conll) (rest : List Conll) (h : c.iob = "B-Tag") :
    stanford_ner (c :: rest) =
      (mergeITags rest (pyStrip c.token),
        if c.cat == "ORGANIZATION" then "ORG" else c.cat) :: stanford_ner rest := by
  simp [stanford_ner, h]

/-- Unfolding stanford_ner at a non-B-Tag head: the triple is skipped. -/
theorem stanford_ner_cons_skip (c : Conll) (rest : List Conll) (h : ¬ c.iob = "B-Tag") :
    stanford_ner (c :: rest) = stanford_ner rest := by
  simp [stanford_ner, h]

/-- The lookahead never reads past a non-I-Tag triple. -/
theorem mergeITags_append_stop (l : List Conll) (c : Conll) (l2 : List Conll) (s : String)
    (h : ¬ c.iob = "I-Tag") : mergeITags (l ++ c :: l2) s = mergeITags l s := by
  induction l generalizing s with
  | nil => simp [mergeITags, h]
  | cons x xs ih =>
    cases hx : x.iob == "I-Tag" with
    | false => simp [mergeITags, hx]
    | true => simp [mergeITags, hx, ih]

/-- If some element of l is not I-Tag, the lookahead never reads past l. -/
theorem mergeITags_append_of_stop_mem (l : List Conll) (l2 : List Conll) (s : String)
    (h : ∃ x ∈ l, ¬ x.iob = "I-Tag") : mergeITags (l ++ l2) s = mergeITags l s := by
  induction l generalizing s with
  | nil => obtain ⟨x, hx, _⟩ := h; exact absurd hx (List.not_mem_nil x)
  | cons x xs ih =>
    cases hx : x.iob == "I-Tag" with
    | false => simp [mergeITags, hx]
    | true =>
      obtain ⟨y, hy, hyI⟩ := h
      rcases List.mem_cons.mp hy with rfl | hy'
      · exact absurd (by simpa using hx) hyI
      · simp only [List.cons_append, mergeITags, hx, if_true]
        exact ih _ ⟨y, hy', hyI⟩

/-- Scanning a list split at a non-I-Tag triple decomposes the output. -/
theorem stanford_ner_append_stop (pre : List Conll) (c : Conll) (rest : List Conll)
    (h : ¬ c.iob = "I-Tag") :
    stanford_ner (pre ++ c :: rest) = stanford_ner pre ++ stanford_ner (c :: rest) := by
  induction pre with
  | nil => rfl
  | cons p ps ih =>
    cases hp : p.iob == "B-Tag" with
    | false =>
      rw [List.cons_append, stanford_ner_cons_skip _ _ (by simpa using hp),
        stanford_ner_cons_skip _ _ (by simpa using hp), ih]
    | true =>
      rw [List.cons_append, stanford_ner_cons_begin _ _ (by simpa using hp),
        stanford_ner_cons_begin _ _ (by simpa using hp), mergeITags_append_stop _ _ _ _ h, ih,
        List.cons_append]

/-- Every emitted entity comes from a B-Tag triple somewhere in the input:
its text is the merge of the trimmed begin token with the following I-Tag
run, and its category is the begin token's category with ORGANIZATION
normalized to ORG. -/
theorem mem_stanford_ner (cs : List Conll) (e : String × String) (he : e ∈ stanford_ner cs) :
    ∃ pre c rest, cs = pre ++ c :: rest ∧ c.iob = "B-Tag" ∧
      e = (mergeITags rest (pyStrip c.token),
        if c.cat = "ORGANIZATION" then "ORG" else c.cat) := by
  induction cs with
  | nil => exact absurd he (List.not_mem_nil e)
  | cons c rest ih =>
    cases hc : c.iob == "B-Tag" with
    | false =>
      rw [stanford_ner_cons_skip _ _ (by simpa using hc)] at he
      obtain ⟨pre, c', rest', hcs, hB, hE⟩ := ih he
      exact ⟨c :: pre, c', rest', by rw [hcs, List.cons_append], hB, hE⟩
    | true =>
      rw [stanford_ner_cons_begin _ _ (by simpa using hc)] at he
      rcases List.mem_cons.mp he with rfl | he'
      · refine ⟨[], c, rest, rfl, by simpa using hc, ?_⟩
        simp [beq_iff_eq]
      · obtain ⟨pre, c', rest', hcs, hB, hE⟩ := ih he'
        exact ⟨c :: pre, c', rest', by rw [hcs, List.cons_append], hB, hE⟩

/-- Conversely, a B-Tag triple after a non-I-Tag boundary yields its
entity in the output; used only through stanford_ner_append_stop. -/
theorem toIOB_mem_chunk_tag (l : List (String × String)) (b : Bool) (x : Conll)
    (hx : x ∈ toIOB l b) (h : x.iob = "B-Tag" ∨ x.iob = "I-Tag") : isEntTag x.cat = true := by
  induction l generalizing b with
  | nil => exact absurd hx (List.not_mem_nil x)
  | cons tc rest ih =>
    obtain ⟨t, c⟩ := tc
    by_cases he : isEntTag c
    · rw [toIOB, if_pos he] at hx
      rcases List.mem_cons.mp hx with rfl | hx'
      · exact he
      · exact ih _ hx'
    · rw [toIOB, if_neg he] at hx
      rcases List.mem_cons.mp hx with rfl | hx'
      · rcases h with h | h <;> simp at h
      · exact ih _ hx'

/-- Every triple produced by toIOB carries the token and category of some
input pair. -/
theorem toIOB_mem_src (l : List (String × String)) (b : Bool) (x : Conll)
    (hx : x ∈ toIOB l b) : ∃ t ∈ l, t.1 = x.token ∧ t.2 = x.cat := by
  induction l generalizing b with
  | nil => exact absurd hx (List.not_mem_nil x)
  | cons tc rest ih =>
    obtain ⟨t, c⟩ := tc
    by_cases he : isEntTag c
    · rw [toIOB, if_pos he] at hx
      rcases List.mem_cons.mp hx with rfl | hx'
      · exact ⟨(t, c), List.mem_cons_self _ _, rfl, rfl⟩
      · obtain ⟨t', ht', he'⟩ := ih _ hx'
        exact ⟨t', List.mem_cons_of_mem _ ht', he'⟩
    · rw [toIOB, if_neg he] at hx
      rcases List.mem_cons.mp hx with rfl | hx'
      · exact ⟨(t, c), List.mem_cons_self _ _, rfl, rfl⟩
      · obtain ⟨t', ht', he'⟩ := ih _ hx'
        exact ⟨t', List.mem_cons_of_mem _ ht', he'⟩

/-- Every entity kept by the SpaCy filter is a trimmed input chunk whose
label is ORG or PERSON. -/
theorem mem_spacy_ner (chunks : List (String × String)) (e : String × String)
    (he : e ∈ spacy_ner chunks) :
    ∃ c ∈ chunks, (c.2 = "ORG" ∨ c.2 = "PERSON") ∧ e = (pyStrip c.1, c.2) := by
  induction chunks with
  | nil => exact absurd he (List.not_mem_nil e)
  | cons c rest ih =>
    by_cases hc : (c.2 == "ORG" || c.2 == "PERSON") = true
    · rw [spacy_ner, if_pos hc] at he
      rcases List.mem_cons.mp he with rfl | he'
      · refine ⟨c, List.mem_cons_self _ _, ?_, rfl⟩
        rcases Bool.or_eq_true_iff.mp hc with h | h
        · exact Or.inl (by simpa using h)
        · exact Or.inr (by simpa using h)
      · obtain ⟨c', hc', hl, hE⟩ := ih he'
        exact ⟨c', List.mem_cons_of_mem _ hc', hl, hE⟩
    · rw [spacy_ner, if_neg hc] at he
      obtain ⟨c', hc', hl, hE⟩ := ih he
      exact ⟨c', List.mem_cons_of_mem _ hc', hl, hE⟩

/-- The names loop collects exactly the texts of the PERSON entities, in
input order. -/
theorem collectNames_eq (res : List (String × String)) :
    collectNames res = (res.filter fun e => e.2 == "PERSON").map fun e => e.1 := by
  induction res with
  | nil => rfl
  | cons e rest ih =>
    cases he : e.2 == "PERSON" with
    | false => simp [collectNames, List.filter_cons, he, ih]
    | true => simp [collectNames, List.filter_cons, he, ih]

/-- The affiliations loop collects exactly the texts of the ORG entities,
in input order. -/
theorem collectAffiliations_eq (res : List (String × String)) :
    collectAffiliations res = (res.filter fun e => e.2 == "ORG").map fun e => e.1 := by
  induction res with
  | nil => rfl
  | cons e rest ih =>
    cases he : e.2 == "ORG" with
    | false => simp [collectAffiliations, List.filter_cons, he, ih]
    | true => simp [collectAffiliations, List.filter_cons, he, ih]

/-- The boolean code-point comparison agrees with the order on String. -/
theorem strLe_iff (a b : String) : strLe a b = true ↔ a ≤ b := by
  rw [strLe, Bool.not_eq_eq_eq_not, Bool.not_true, decide_eq_false_iff_not,
    String.le_iff_toList_le]
  exact not_lt

/-! ### Claim theorems -/

/-- C1: for every input sequence of (token, category, IOB-marker) triples,
the entity list returned by the chunker in stanford_ner has length equal
to the number of triples whose IOB marker is B-Tag; in particular a
sequence with no begin markers yields an empty list, and a single begin
token with no following inside tokens still yields one entity. -/
theorem stanford_ner_length_eq_begin_count (cs : List Conll) :
    (stanford_ner cs).length = (cs.filter fun c => c.iob == "B-Tag").length := by
  induction cs with
  | nil => rfl
  | cons c rest ih =>
    cases hc : c.iob == "B-Tag" with
    | false => simp [stanford_ner, hc, List.filter_cons, ih]
    | true => simp [stanford_ner, hc, List.filter_cons, ih]

/-- C2: every entity emitted by stanford_ner has as its surface text the
space-joined, whitespace-trimmed concatenation of a contiguous run of
input tokens in original order, starting at a B-Tag-marked triple. -/
theorem stanford_ner_entity_text (cs : List Conll) (e : String × String)
    (he : e ∈ stanford_ner cs) :
    ∃ pre c mids post, cs = pre ++ (c :: mids) ++ post ∧ c.iob = "B-Tag" ∧
      (∀ m ∈ mids, m.iob = "I-Tag") ∧
      e.1 = String.intercalate " " ((c :: mids).map fun m => pyStrip m.token) := by
  obtain ⟨pre, c, rest, hcs, hB, hE⟩ := mem_stanford_ner cs e he
  refine ⟨pre, c, rest.takeWhile (fun x => x.iob == "I-Tag"),
    rest.dropWhile (fun x => x.iob == "I-Tag"), ?_, hB, ?_, ?_⟩
  · rw [hcs]
    simp [List.takeWhile_append_dropWhile]
  · intro m hm
    simpa using List.mem_takeWhile_imp hm
  · rw [hE]
    simp only
    rw [mergeITags_eq_intercalate, List.map_cons]

/-- C2 witness: a two-token ORGANIZATION entity followed by an outside
token, evaluated concretely. -/
theorem stanford_ner_entity_text_witness :
    (("Acme Corp", "ORG") ∈ stanford_ner
        [⟨"Acme", "ORGANIZATION", "B-Tag"⟩, ⟨"Corp", "ORGANIZATION", "I-Tag"⟩,
          ⟨"said", "O", "O"⟩]) ∧
    (∃ pre c mids post,
      ([⟨"Acme", "ORGANIZATION", "B-Tag"⟩, ⟨"Corp", "ORGANIZATION", "I-Tag"⟩,
          ⟨"said", "O", "O"⟩] : List Conll) = pre ++ (c :: mids) ++ post ∧ c.iob = "B-Tag" ∧
      (∀ m ∈ mids, m.iob = "I-Tag") ∧
      ("Acme Corp", "ORG").1 =
        String.intercalate " " ((c :: mids).map fun m => pyStrip m.token)) :=
  ⟨by decide, stanford_ner_entity_text _ _ (by decide)⟩

/-- C4: on a B-Tag triple at any position, the lookahead appends exactly
the maximal run of consecutive I-Tag triples that follows, stops at the
first non-I-Tag triple without consuming it, and the outer scan resumes
from the next position, so entities are emitted in left-to-right order. -/
theorem stanford_ner_begin_lookahead (pre : List Conll) (c : Conll) (rest : List Conll)
    (h : c.iob = "B-Tag") :
    stanford_ner (pre ++ c :: rest) =
      stanford_ner pre ++
        ((String.intercalate " "
            ((c :: rest.takeWhile fun x => x.iob == "I-Tag").map fun x => pyStrip x.token),
          if c.cat = "ORGANIZATION" then "ORG" else c.cat) :: stanford_ner rest) := by
  rw [stanford_ner_append_stop _ _ _ (by simp [h]), stanford_ner_cons_begin _ _ h,
    mergeITags_eq_intercalate, List.map_cons]
  simp [beq_iff_eq]

/-- C4 witness: a begin token after an outside token, with one following
inside token and a following outside token, evaluated concretely. -/
theorem stanford_ner_begin_lookahead_witness :
    (⟨"Jane", "PERSON", "B-Tag"⟩ : Conll).iob = "B-Tag" ∧
    stanford_ner ([⟨"Dr", "O", "O"⟩] ++ ⟨"Jane", "PERSON", "B-Tag"⟩ ::
        [⟨"Doe", "PERSON", "I-Tag"⟩, ⟨"spoke", "O", "O"⟩]) =
      stanford_ner [⟨"Dr", "O", "O"⟩] ++
        ((String.intercalate " "
            ((⟨"Jane", "PERSON", "B-Tag"⟩ ::
                List.takeWhile (fun x : Conll => x.iob == "I-Tag")
                  [⟨"Doe", "PERSON", "I-Tag"⟩, ⟨"spoke", "O", "O"⟩]).map
                fun x : Conll => pyStrip x.token),
          if (⟨"Jane", "PERSON", "B-Tag"⟩ : Conll).cat = "ORGANIZATION" then "ORG"
          else (⟨"Jane", "PERSON", "B-Tag"⟩ : Conll).cat) ::
          stanford_ner [⟨"Doe", "PERSON", "I-Tag"⟩, ⟨"spoke", "O", "O"⟩]) :=
  ⟨rfl, stanford_ner_begin_lookahead _ _ _ rfl⟩

/-- C5: every entity emitted by stanford_ner is built from a begin token
of the input — its text is the merge of that begin token's trimmed text
with the following I-Tag run — and when that same begin token's raw
category is ORGANIZATION the entity is emitted with category ORG, while
any other raw category is kept unchanged. -/
theorem stanford_ner_category_normalization (cs : List Conll) (e : String × String)
    (he : e ∈ stanford_ner cs) :
    ∃ pre c rest, cs = pre ++ c :: rest ∧ c.iob = "B-Tag" ∧
      e.1 = mergeITags rest (pyStrip c.token) ∧
      e.2 = if c.cat = "ORGANIZATION" then "ORG" else c.cat := by
  obtain ⟨pre, c, rest, hcs, hB, hE⟩ := mem_stanford_ner cs e he
  exact ⟨pre, c, rest, hcs, hB, by rw [hE], by rw [hE]⟩

/-- C5 witness: an ORGANIZATION begin token with a PERSON begin token
after it; the first emitted entity is tied to its own begin token and is
emitted as ORG, not as the other token's category. -/
theorem stanford_ner_category_normalization_witness :
    (("IBM", "ORG") ∈ stanford_ner
        [⟨"IBM", "ORGANIZATION", "B-Tag"⟩, ⟨"Ada", "PERSON", "B-Tag"⟩]) ∧
    (∃ pre c rest,
      ([⟨"IBM", "ORGANIZATION", "B-Tag"⟩, ⟨"Ada", "PERSON", "B-Tag"⟩] : List Conll) =
        pre ++ c :: rest ∧
      c.iob = "B-Tag" ∧
      ("IBM", "ORG").1 = mergeITags rest (pyStrip c.token) ∧
      ("IBM", "ORG").2 = if c.cat = "ORGANIZATION" then "ORG" else c.cat) :=
  ⟨by decide, stanford_ner_category_normalization _ _ (by decide)⟩

/-- A leading run of I-Tag triples is skipped entirely by the outer scan. -/
theorem stanford_ner_irun_append (irun post : List Conll)
    (h : ∀ c ∈ irun, c.iob = "I-Tag") :
    stanford_ner (irun ++ post) = stanford_ner post := by
  induction irun with
  | nil => rfl
  | cons i is ih =>
    rw [List.cons_append, stanford_ner_cons_skip, ih fun c hc => h c (List.mem_cons_of_mem _ hc)]
    rw [h i (List.mem_cons_self _ _)]
    simp

/-- C6: an I-Tag run that is not preceded, transitively through
consecutive I-Tag triples, by a B-Tag triple contributes nothing to the
output: deleting the whole orphan run leaves the entity list unchanged. -/
theorem stanford_ner_orphan_inside_ignored (pre irun post : List Conll)
    (h1 : ∀ c ∈ irun, c.iob = "I-Tag")
    (h2 : ∀ x, pre.getLast? = some x → ¬ x.iob = "B-Tag" ∧ ¬ x.iob = "I-Tag") :
    stanford_ner (pre ++ irun ++ post) = stanford_ner (pre ++ post) := by
  rw [List.append_assoc]
  induction pre with
  | nil => simpa using stanford_ner_irun_append irun post h1
  | cons p ps ih =>
    cases ps with
    | nil =>
      obtain ⟨hpB, _⟩ := h2 p rfl
      show stanford_ner (p :: ([] ++ (irun ++ post))) = stanford_ner (p :: ([] ++ post))
      rw [stanford_ner_cons_skip _ _ hpB, stanford_ner_cons_skip _ _ hpB,
        List.nil_append, List.nil_append, stanford_ner_irun_append irun post h1]
    | cons q qs =>
      have h2' : ∀ x, (q :: qs).getLast? = some x → ¬ x.iob = "B-Tag" ∧ ¬ x.iob = "I-Tag" := by
        intro x hx
        exact h2 x (by rwa [List.getLast?_cons_cons])
      have hlast : ∃ x ∈ q :: qs, ¬ x.iob = "I-Tag" := by
        have hne : q :: qs ≠ [] := by simp
        refine ⟨(q :: qs).getLast hne, List.getLast_mem hne, ?_⟩
        exact (h2' _ ((q :: qs).getLast?_eq_getLast hne)).2
      cases hp : p.iob == "B-Tag" with
      | false =>
        show stanford_ner (p :: ((q :: qs) ++ (irun ++ post))) =
          stanford_ner (p :: ((q :: qs) ++ post))
        rw [stanford_ner_cons_skip _ _ (by simpa using hp),
          stanford_ner_cons_skip _ _ (by simpa using hp)]
        exact ih h2'
      | true =>
        show stanford_ner (p :: ((q :: qs) ++ (irun ++ post))) =
          stanford_ner (p :: ((q :: qs) ++ post))
        rw [stanford_ner_cons_begin _ _ (by simpa using hp),
          stanford_ner_cons_begin _ _ (by simpa using hp),
          mergeITags_append_of_stop_mem _ _ _ hlast,
          mergeITags_append_of_stop_mem _ _ _ hlast, ih h2']

/-- C6 witness: a lone inside-marked token after an outside token and
before a fresh begin token is ignored; evaluated concretely. -/
theorem stanford_ner_orphan_inside_ignored_witness :
    (∀ c ∈ ([⟨"Smith", "PERSON", "I-Tag"⟩] : List Conll), c.iob = "I-Tag") ∧
    (∀ x, ([⟨"the", "DT", "O"⟩] : List Conll).getLast? = some x →
      ¬ x.iob = "B-Tag" ∧ ¬ x.iob = "I-Tag") ∧
    stanford_ner ([⟨"the", "DT", "O"⟩] ++ [⟨"Smith", "PERSON", "I-Tag"⟩] ++
        [⟨"IBM", "ORGANIZATION", "B-Tag"⟩]) =
      stanford_ner ([⟨"the", "DT", "O"⟩] ++ [⟨"IBM", "ORGANIZATION", "B-Tag"⟩]) :=
  ⟨by decide,
    fun x hx => by
      have hx' : (⟨"the", "DT", "O"⟩ : Conll) = x := by simpa using hx
      rw [← hx']
      exact ⟨by decide, by decide⟩,
    stanford_ner_orphan_inside_ignored _ _ _ (by decide)
      (fun x hx => by
        have hx' : (⟨"the", "DT", "O"⟩ : Conll) = x := by simpa using hx
        rw [← hx']
        exact ⟨by decide, by decide⟩)⟩

/-- C3 counterexample: with the chunking rule of the grammar on line 88,
an ORGANIZATION token directly followed by a PERSON token forms a single
chunk, so stanford_ner merges the PERSON-labeled token into the entity
begun by the ORGANIZATION-labeled token: the emitted entity spans a
differently-labeled token. -/
theorem stanfordPath_mixed_chunk_cex :
    toIOB [("ACM", "ORGANIZATION"), ("Turing", "PERSON")] false =
      [⟨"ACM", "ORGANIZATION", "B-Tag"⟩, ⟨"Turing", "PERSON", "I-Tag"⟩] ∧
    stanfordPath [("ACM", "ORGANIZATION"), ("Turing", "PERSON")] = [("ACM Turing", "ORG")] ∧
    ("PERSON" : String) ≠ "ORGANIZATION" := by
  refine ⟨by decide, by decide, by decide⟩

/-- C3 amended: every token merged into an entity on the Stanford path
(the begin token and all appended inside tokens) is organization- or
person-tagged, so an entity never spans an outside token; but the raw
category labels inside one entity need not all equal the begin token's
label, since one chunk may mix ORGANIZATION- and PERSON-tagged tokens. -/
theorem stanfordPath_entity_within_chunk (tagged : List (String × String))
    (e : String × String) (he : e ∈ stanfordPath tagged) :
    ∃ pre c mids post, toIOB tagged false = pre ++ (c :: mids) ++ post ∧
      c.iob = "B-Tag" ∧ isEntTag c.cat = true ∧
      (∀ m ∈ mids, m.iob = "I-Tag" ∧ isEntTag m.cat = true) ∧
      e.1 = String.intercalate " " ((c :: mids).map fun m => pyStrip m.token) := by
  obtain ⟨pre, c, rest, hcs, hB, hE⟩ := mem_stanford_ner _ e he
  refine ⟨pre, c, rest.takeWhile (fun x => x.iob == "I-Tag"),
    rest.dropWhile (fun x => x.iob == "I-Tag"), ?_, hB, ?_, ?_, ?_⟩
  · rw [hcs]
    simp [List.takeWhile_append_dropWhile]
  · refine toIOB_mem_chunk_tag tagged false c ?_ (Or.inl hB)
    rw [hcs]
    exact List.mem_append_right _ (List.mem_cons_self _ _)
  · intro m hm
    have hmI : m.iob = "I-Tag" := by simpa using List.mem_takeWhile_imp hm
    refine ⟨hmI, ?_⟩
    have hm' : m ∈ toIOB tagged false := by
      rw [hcs]
      exact List.mem_append_right _
        (List.mem_cons_of_mem _ ((List.takeWhile_sublist _).subset hm))
    exact toIOB_mem_chunk_tag tagged false m hm' (Or.inr hmI)
  · rw [hE]
    simp only
    rw [mergeITags_eq_intercalate, List.map_cons]

/-- C3 witness: the amended statement applied to the mixed-run input. -/
theorem stanfordPath_entity_within_chunk_witness :
    (("ACM Turing", "ORG") ∈ stanfordPath [("ACM", "ORGANIZATION"), ("Turing", "PERSON")]) ∧
    (∃ pre c mids post,
      toIOB [("ACM", "ORGANIZATION"), ("Turing", "PERSON")] false =
        pre ++ (c :: mids) ++ post ∧
      c.iob = "B-Tag" ∧ isEntTag c.cat = true ∧
      (∀ m ∈ mids, m.iob = "I-Tag" ∧ isEntTag m.cat = true) ∧
      ("ACM Turing", "ORG").1 =
        String.intercalate " " ((c :: mids).map fun m => pyStrip m.token)) :=
  ⟨by decide, stanfordPath_entity_within_chunk _ _ (by decide)⟩

/-- C7: the output step partitions the entity list so that names are
exactly the texts of PERSON entities and affiliations exactly the texts
of ORG entities, every other category is dropped, both lists are sorted
ascending in the lexicographic string order, and duplicates are
preserved (the sorted lists are permutations of the filtered inputs);
the spec example is computed explicitly. -/
theorem outputStep_partition_sort (res : List (String × String)) :
    ((outputStep res).1).Perm ((res.filter fun e => e.2 == "PERSON").map fun e => e.1) ∧
    ((outputStep res).2).Perm ((res.filter fun e => e.2 == "ORG").map fun e => e.1) ∧
    ((outputStep res).1).Sorted (· ≤ ·) ∧
    ((outputStep res).2).Sorted (· ≤ ·) ∧
    outputStep [("Jane Doe", "PERSON"), ("MIT", "ORG"), ("Ann", "PERSON")] =
      (["Ann", "Jane Doe"], ["MIT"]) := by
  haveI hTot : IsTotal String (fun a b => strLe a b = true) := ⟨fun a b => by
    rcases le_total a b with h | h
    · exact Or.inl ((strLe_iff a b).mpr h)
    · exact Or.inr ((strLe_iff b a).mpr h)⟩
  haveI hTrans : IsTrans String (fun a b => strLe a b = true) := ⟨fun a b c hab hbc =>
    (strLe_iff a c).mpr (le_trans ((strLe_iff a b).mp hab) ((strLe_iff b c).mp hbc))⟩
  refine ⟨?_, ?_, ?_, ?_, by decide⟩
  · rw [← collectNames_eq]
    exact List.perm_insertionSort _ _
  · rw [← collectAffiliations_eq]
    exact List.perm_insertionSort _ _
  · exact (List.sorted_insertionSort _ _).imp fun h => (strLe_iff _ _).mp h
  · exact (List.sorted_insertionSort _ _).imp fun h => (strLe_iff _ _).mp h

/-- C8: whenever the URL check fails or the scrape finds no cfp section,
the program prints the message and exits with status 0, producing no
result. -/
theorem mainFlow_invalid_url_exit (u : ParseResult) (page : Option String)
    (ner : String → List (String × String))
    (h : urlIsValid u = false ∨ page = none) :
    mainFlow u page ner = .error ⟨"Please enter a valid URL", 0⟩ := by
  rcases h with h | h
  · simp [mainFlow, h]
  · subst h
    cases hv : urlIsValid u <;> simp [mainFlow, hv, get_cfp]

/-- C8 witness: a URL none of whose parsed components equals
wikicfp.com, with a successfully scraped page, still exits with the
message and status 0. -/
theorem mainFlow_invalid_url_exit_witness :
    (urlIsValid ⟨"http", "www.wikicfp.com", "/cfp/servlet/event.showcfp", "",
        "eventid=1", ""⟩ = false ∨ (some "cfp text" : Option String) = none) ∧
    mainFlow ⟨"http", "www.wikicfp.com", "/cfp/servlet/event.showcfp", "",
        "eventid=1", ""⟩ (some "cfp text") (fun _ => []) =
      .error ⟨"Please enter a valid URL", 0⟩ :=
  ⟨Or.inl (by decide),
    mainFlow_invalid_url_exit _ _ _ (Or.inl (by decide))⟩

/-- C9 counterexample: a token whose raw tag begins with PERSON but is
not PERSON is grouped by the chunker, and stanford_ner emits it with its
raw tag unchanged, a category outside the set containing PERSON and
ORG. -/
theorem stanfordPath_person_prefixed_cex :
    stanfordPath [("X", "PERSONIFY")] = [("X", "PERSONIFY")] ∧
    ¬ (("PERSONIFY" : String) = "PERSON" ∨ ("PERSONIFY" : String) = "ORG") := by
  refine ⟨by decide, by decide⟩

/-- C9 amended: every entity from spacy_ner has category ORG or PERSON;
every entity from the Stanford path has category ORG or a category
beginning with PERSON; and if every PERSON-prefixed tag the tagger emits
is exactly PERSON (as for the seven-class Stanford model), every entity
from the Stanford path has category ORG or PERSON, so the downstream
drop branch is unreachable on these outputs. -/
theorem ner_paths_categories :
    (∀ chunks e, e ∈ spacy_ner chunks → e.2 = "ORG" ∨ e.2 = "PERSON") ∧
    (∀ tagged e, e ∈ stanfordPath tagged →
      e.2 = "ORG" ∨ "PERSON".data.isPrefixOf e.2.data = true) ∧
    (∀ tagged e,
      (∀ t ∈ tagged, "PERSON".data.isPrefixOf (t.2 : String).data = true → t.2 = "PERSON") →
      e ∈ stanfordPath tagged → e.2 = "ORG" ∨ e.2 = "PERSON") := by
  refine ⟨?_, ?_, ?_⟩
  · intro chunks e he
    obtain ⟨c, _, hl, hE⟩ := mem_spacy_ner chunks e he
    rw [hE]
    exact hl
  · intro tagged e he
    obtain ⟨pre, c, rest, hcs, hB, hE⟩ := mem_stanford_ner _ e he
    have hc : c ∈ toIOB tagged false := by
      rw [hcs]
      exact List.mem_append_right _ (List.mem_cons_self _ _)
    have htag := toIOB_mem_chunk_tag tagged false c hc (Or.inl hB)
    rw [hE]
    by_cases ho : c.cat = "ORGANIZATION"
    · simp [ho]
    · right
      simp only [if_neg ho]
      rcases Bool.or_eq_true_iff.mp htag with h | h
      · exact absurd (by simpa using h) ho
      · exact h
  · intro tagged e hP he
    obtain ⟨pre, c, rest, hcs, hB, hE⟩ := mem_stanford_ner _ e he
    have hc : c ∈ toIOB tagged false := by
      rw [hcs]
      exact List.mem_append_right _ (List.mem_cons_self _ _)
    have htag := toIOB_mem_chunk_tag tagged false c hc (Or.inl hB)
    obtain ⟨t, ht, _, hcat⟩ := toIOB_mem_src tagged false c hc
    rw [hE]
    by_cases ho : c.cat = "ORGANIZATION"
    · simp [ho]
    · right
      simp only [if_neg ho]
      rcases Bool.or_eq_true_iff.mp htag with h | h
      · exact absurd (by simpa using h) ho
      · rw [← hcat]
        exact hP t ht (by rw [hcat]; exact h)

/-- C9 witness: the spacy branch applied to a concrete ORG chunk. -/
theorem ner_paths_categories_witness :
    (("MIT", "ORG") ∈ spacy_ner [("MIT", "ORG")]) ∧
    ((("MIT", "ORG") : String × String).2 = "ORG" ∨
      (("MIT", "ORG") : String × String).2 = "PERSON") :=
  ⟨by decide, ner_paths_categories.1 [("MIT", "ORG")] _ (by decide)⟩

/-- C10: the URL check accepts exactly when some whole component of the
parsed URL equals wikicfp.com; a URL whose netloc is www.wikicfp.com and
none of whose components equals wikicfp.com is rejected even though the
string wikicfp.com occurs inside it. -/
theorem urlIsValid_iff_component (u : ParseResult) :
    (urlIsValid u = true ↔
      u.scheme = "wikicfp.com" ∨ u.netloc = "wikicfp.com" ∨ u.path = "wikicfp.com" ∨
      u.params = "wikicfp.com" ∨ u.query = "wikicfp.com" ∨ u.fragment = "wikicfp.com") ∧
    urlIsValid ⟨"http", "www.wikicfp.com", "/cfp/servlet/event.showcfp", "",
      "eventid=1", ""⟩ = false := by
  refine ⟨?_, by decide⟩
  simp only [urlIsValid, ParseResult.components, List.contains_cons, List.contains_nil,
    Bool.or_eq_true, beq_iff_eq, Bool.or_false]
  constructor
  · intro h
    rcases h with h | h | h | h | h | h
    · exact Or.inl h.symm
    · exact Or.inr (Or.inl h.symm)
    · exact Or.inr (Or.inr (Or.inl h.symm))
    · exact Or.inr (Or.inr (Or.inr (Or.inl h.symm)))
    · exact Or.inr (Or.inr (Or.inr (Or.inr (Or.inl h.symm))))
    · exact Or.inr (Or.inr (Or.inr (Or.inr (Or.inr h.symm))))
  · intro h
    rcases h with h | h | h | h | h | h
    · exact Or.inl h.symm
    · exact Or.inr (Or.inl h.symm)
    · exact Or.inr (Or.inr (Or.inl h.symm))
    · exact Or.inr (Or.inr (Or.inr (Or.inl h.symm)))
    · exact Or.inr (Or.inr (Or.inr (Or.inr (Or.inl h.symm))))
    · exact Or.inr (Or.inr (Or.inr (Or.inr (Or.inr h.symm))))

/-- C10 witness: a parse whose netloc component is exactly wikicfp.com is
accepted. -/
theorem urlIsValid_iff_component_witness :
    urlIsValid ⟨"http", "wikicfp.com", "/cfp/servlet/event.showcfp", "",
      "eventid=1", ""⟩ = true :=
  (urlIsValid_iff_component _).1.mpr (Or.inr (Or.inl rfl))

end CFPNER
